import Mathlib

/-!
Verification development for the agent-intelligence-hub analyzers.

Shallow embedding of the analyzer algorithms (reputation engine, identity
resolver, threat-intelligence correlator, network analyzer) as executable
Lean functions over exact rational arithmetic, together with theorems
settling the specification claims about them.
-/

namespace AgentHub

/-! ## Reputation engine: composite score (reputation_engine.calculateCompositeScore)

The composite INSERT joins the six per-category sub-score rows with FULL
OUTER JOINs, treats a missing row as 0 via COALESCE, applies the fixed
weights, and clamps with LEAST(100, GREATEST(0, _)).  The factor_breakdown
JSON records the six COALESCEd sub-scores. -/

/-- The six optional per-category sub-score rows of one agent
(`agent_reputation_scores` rows for platforms moltbook, moltx, 4claw,
engagement_quality, security_record, longevity); `none` means no row. -/
structure SubScores where
  moltbook : Option ℚ
  moltx : Option ℚ
  fourclaw : Option ℚ
  engagement_quality : Option ℚ
  security_record : Option ℚ
  longevity : Option ℚ

/-- The factor_breakdown JSON object recorded with the composite row:
the six sub-scores after COALESCE(_, 0). -/
structure FactorBreakdown where
  moltbook : ℚ
  moltx : ℚ
  fourclaw : ℚ
  engagement_quality : ℚ
  security : ℚ
  longevity : ℚ
deriving DecidableEq

/-- JSON_BUILD_OBJECT of the composite INSERT: each entry is COALESCE(score, 0). -/
def factorBreakdown (s : SubScores) : FactorBreakdown :=
  ⟨s.moltbook.getD 0, s.moltx.getD 0, s.fourclaw.getD 0,
   s.engagement_quality.getD 0, s.security_record.getD 0, s.longevity.getD 0⟩

/-- The composite score expression of calculateCompositeScore:
LEAST(100, GREATEST(0, mb*0.20 + mx*0.20 + cc*0.10 + eq*0.25 + sec*0.20 + lg*0.05))
with each sub-score COALESCEd to 0. -/
def compositeScore (s : SubScores) : ℚ :=
  min 100 (max 0
    (s.moltbook.getD 0 * (20/100) +
     s.moltx.getD 0 * (20/100) +
     s.fourclaw.getD 0 * (10/100) +
     s.engagement_quality.getD 0 * (25/100) +
     s.security_record.getD 0 * (20/100) +
     s.longevity.getD 0 * (5/100)))

/-- An agent contributes a composite row exactly when the FULL OUTER JOIN
chain produces a row for it, i.e. when at least one sub-score row exists. -/
def hasSubScore (s : SubScores) : Bool :=
  s.moltbook.isSome || s.moltx.isSome || s.fourclaw.isSome ||
  s.engagement_quality.isSome || s.security_record.isSome || s.longevity.isSome

/-- The composite row written for one agent: score plus factor breakdown,
present iff the agent has at least one sub-score row. -/
def compositeRow (s : SubScores) : Option (ℚ × FactorBreakdown) :=
  if hasSubScore s then some (compositeScore s, factorBreakdown s) else none

/-- Reconstruction of the weighted sum from the recorded factor breakdown,
following the spec's weight table
`{platformA:0.20, platformB:0.20, cross-platform:0.10, engagement:0.25, security:0.20, longevity:0.05}`. -/
def reconstructComposite (b : FactorBreakdown) : ℚ :=
  (20/100) * b.moltbook + (20/100) * b.moltx + (10/100) * b.fourclaw +
  (25/100) * b.engagement_quality + (20/100) * b.security + (5/100) * b.longevity

/-! ## Identity resolver: upsert confidence reconciliation

linkExactMatches resolves an INSERT conflict with
`confidence = GREATEST(EXCLUDED.confidence, agent_identity_links.confidence)`,
i.e. the maximum of the new and the previously stored confidence.
linkFuzzyMatches (and linkByMetadata) resolve it with
`confidence = GREATEST(EXCLUDED.confidence, $3)` where EXCLUDED.confidence
is itself the bind parameter $3, i.e. the new value on both sides. -/

/-- Stored confidence after the exact-match upsert for a pair whose previous
confidence is `old` (`none` when the pair had no link) and newly computed
confidence is `newConf`. -/
def exactMatchUpsert (old : Option ℚ) (newConf : ℚ) : ℚ :=
  match old with
  | none => newConf
  | some o => max newConf o

/-- Stored confidence after the fuzzy-match (and metadata) upsert: the
DO UPDATE clause is GREATEST(EXCLUDED.confidence, $3), and both arguments
are the newly computed confidence. -/
def fuzzyMatchUpsert (old : Option ℚ) (newConf : ℚ) : ℚ :=
  match old with
  | none => newConf
  | some _ => max newConf newConf

/-! ## Threat intelligence: behavioral detector, credential harvesting

analyzeAgentBehavior emits, for every author with more than 2 skills
matching credential_access/environment_access alerts in 30 days
(`HAVING COUNT(*) > 2`), a signal with
`risk_score: 0.8 + (agent.suspicious_skills * 0.05)` — with no upper cap. -/

/-- risk_score of the credential_harvesting threat signal for an author with
`suspiciousSkills` qualifying skills. -/
def credentialHarvestingRisk (suspiciousSkills : Nat) : ℚ :=
  8/10 + suspiciousSkills * (5/100)

/-- The credential_harvesting signal is emitted exactly for authors passing
the HAVING COUNT(*) > 2 filter. -/
def credentialHarvestingEmitted (suspiciousSkills : Nat) : Bool :=
  2 < suspiciousSkills

/-! ## Identity resolver: sock-puppet flagging (detectSockPuppets)

The INSERT over network_clusters filters only on `WHERE account_count >= 3`;
the creation-time variance is recorded as the JSON flag
`creation_cluster = (creation_time_variance < 86400)` but never filtered on.
Severity is the CASE on account_count alone. -/

/-- Severity CASE of the sock_puppet_network alert. -/
def sockPuppetSeverity (accountCount : Nat) : String :=
  if 5 ≤ accountCount then "high"
  else if 3 ≤ accountCount then "medium"
  else "low"

/-- The alert row produced for a cluster: present iff account_count >= 3;
carries the severity and the recorded creation_cluster flag
(creation_time_variance < 86400 seconds). -/
def sockPuppetAlert (accountCount : Nat) (creationVarianceSec : ℚ) :
    Option (String × Bool) :=
  if 3 ≤ accountCount then
    some (sockPuppetSeverity accountCount, decide (creationVarianceSec < 86400))
  else none

/-! ## Identity resolver: string similarity (stringSimilarity / levenshteinDistance)

JS strings are embedded as `List Char`.  levenshteinDistance fills the DP
table row by row (rows indexed by s2, columns by s1) and returns the
bottom-right cell; stringSimilarity lower-cases and trims both strings,
returns 0 if either raw argument is empty, 1 on equality, and otherwise
(longer.length - editDistance) / longer.length. -/

/-- One DP row update: given the remaining characters of s1, the cell to the
left, and the previous row starting at the diagonal cell, produce the rest of
the current row via track[j][i] = min(track[j][i-1]+1, track[j-1][i]+1,
track[j-1][i-1]+indicator). -/
def levRowAux (c2 : Char) : List Char → Nat → List Nat → List Nat
  | [], _, _ => []
  | _ :: _, _, [] => []
  | _ :: _, _, [_] => []
  | c1 :: cs, left, diag :: above :: rest =>
      let cell := min (left + 1) (min (above + 1) (diag + (if c1 == c2 then 0 else 1)))
      cell :: levRowAux c2 cs cell (above :: rest)

/-- Outer DP loop over the characters of s2; row j starts with track[j][0] = j. -/
def levLoop (s1 : List Char) : List Char → List Nat → Nat → List Nat
  | [], prev, _ => prev
  | c2 :: rest, prev, j =>
      levLoop s1 rest ((j+1) :: levRowAux c2 s1 (j+1) prev) (j+1)

/-- levenshteinDistance(s1, s2): row 0 is [0..s1.length], the result is
track[s2.length][s1.length], the last cell of the last row. -/
def levenshteinDistance (s1 s2 : List Char) : Nat :=
  (levLoop s1 s2 (List.range (s1.length + 1)) 0).getLastD 0

/-- JS String.prototype.toLowerCase, per character. -/
def jsLower (s : List Char) : List Char := s.map Char.toLower

/-- JS String.prototype.trim: strip leading and trailing whitespace. -/
def jsTrim (s : List Char) : List Char :=
  ((s.dropWhile Char.isWhitespace).reverse.dropWhile Char.isWhitespace).reverse

/-- stringSimilarity(str1, str2) of the identity resolver: 0 when either raw
argument is empty (JS falsy), 1 when the normalized strings coincide, else
(longer.length - levenshteinDistance(longer, shorter)) / longer.length. -/
def stringSimilarity (str1 str2 : List Char) : ℚ :=
  if str1.isEmpty || str2.isEmpty then 0
  else
    let s1 := jsTrim (jsLower str1)
    let s2 := jsTrim (jsLower str2)
    if s1 == s2 then 1
    else
      let longer := if s2.length < s1.length then s1 else s2
      let shorter := if s2.length < s1.length then s2 else s1
      if longer.length == 0 then 1
      else ((longer.length : ℚ) - levenshteinDistance longer shorter) / longer.length

/-! ## Threat intelligence: correlation (correlateThreats)

correlateThreats groups the signals by key
agent_id || agent_name || author || 'unknown' (JS string truthiness), then
for every key with more than one signal multiplies each of its signals' risk
by boost = 1 + 0.2*(count-1), capping the risk at 1.0 and recording the
boost; finally it sorts by descending risk. -/

/-- A threat signal as produced by the detectors: the three optional
referencing fields used to build the correlation key, the risk score, and
the correlation_boost field (absent until correlation sets it). -/
structure ThreatSignal where
  agent_id : Option String
  agent_name : Option String
  author : Option String
  risk_score : ℚ
  correlation_boost : Option ℚ
deriving DecidableEq

/-- JS `a || b` for an optional string against a fallback: an absent or empty
string is falsy and falls through. -/
def jsStringOr (a : Option String) (b : String) : String :=
  match a with
  | some s => if s = "" then b else s
  | none => b

/-- The correlation key: threat.agent_id || threat.agent_name || threat.author || 'unknown'. -/
def signalKey (t : ThreatSignal) : String :=
  jsStringOr t.agent_id (jsStringOr t.agent_name (jsStringOr t.author "unknown"))

/-- The boost pass of correlateThreats: each signal whose key is shared by
n > 1 signals gets risk := min(risk * (1 + 0.2*(n-1)), 1.0) and
correlation_boost := the boost factor; other signals are untouched. -/
def boostSignals (ts : List ThreatSignal) : List ThreatSignal :=
  ts.map fun t =>
    let n := (ts.filter fun u => signalKey u == signalKey t).length
    if 1 < n then
      let boost : ℚ := 1 + ((n : ℚ) - 1) * (2/10)
      { t with risk_score := min (t.risk_score * boost) 1, correlation_boost := some boost }
    else t

/-- correlateThreats: boost, then sort by descending risk_score. -/
def correlateThreats (ts : List ThreatSignal) : List ThreatSignal :=
  (boostSignals ts).mergeSort fun a b => decide (b.risk_score ≤ a.risk_score)

/-- A signal of base risk 0.5 referencing agent-1, as in the spec's
three-signal correlation scenario. -/
def baseHalf : ThreatSignal := ⟨some "agent-1", none, none, 1/2, none⟩

/-- The expected result of boosting `baseHalf` in a group of three:
risk min(0.5 * 1.4, 1.0) = 0.7, boost 1.4 recorded. -/
def boostedHalf : ThreatSignal := ⟨some "agent-1", none, none, 7/10, some (7/5)⟩

/-! ## Network analyzer: amplification networks (findAmplificationNetworks)

For every node, the connected edges are those with the node as source or
target; if there are more than 5 of them, a pattern is emitted when at least
70% of them have weight strictly above 1.5 times the node's mean incident
weight. -/

/-- An interaction-graph edge (source, target, weight). -/
structure IEdge where
  source : Nat
  target : Nat
  weight : ℚ
deriving DecidableEq

/-- The amplification_network pattern record pushed by
findAmplificationNetworks (evidence fields included). -/
structure AmplificationPattern where
  center_agent : Nat
  connected_agents : List Nat
  strength : ℚ
  total_connections : Nat
  high_weight_connections : Nat
deriving DecidableEq

/-- findAmplificationNetworks: for each node with more than 5 incident edges,
emit a pattern when the edges of weight > 1.5 * average make up at least 70%
of the incident edges. -/
def findAmplificationNetworks (nodes : List Nat) (edges : List IEdge) :
    List AmplificationPattern :=
  nodes.foldr (fun node acc =>
    (let connected := edges.filter fun e => e.source == node || e.target == node
     if 5 < connected.length then
      let avgWeight := (connected.map fun e => e.weight).sum / (connected.length : ℚ)
      let high := connected.filter fun e => decide (avgWeight * (15/10) < e.weight)
      if ((connected.length : ℚ) * (7/10) ≤ (high.length : ℚ)) then
        [⟨node, connected.map (fun e => if e.source == node then e.target else e.source),
          avgWeight, connected.length, high.length⟩]
      else []
     else []) ++ acc) []

/-! ## Identity resolver: unified profiles (createUnifiedProfiles)

The recursive CTE agent_clusters seeds ONLY with agents that have no
identity link at all (NOT EXISTS over agent_identity_links) and then tries
to follow links from those rows (depth-bounded at 10); canonical_agents
groups the rows by LEAST-based key, keeps groups with more than one distinct
cluster_id, and the INSERT writes one profile per surviving group. -/

/-- An agent_identity_links row (primary_agent_id, linked_agent_id). -/
structure LinkRow where
  primary : Nat
  linked : Nat
deriving DecidableEq

/-- A row of the recursive CTE agent_clusters: (root_agent_id, cluster_id, depth). -/
structure ClusterRow where
  root : Nat
  cluster : Nat
  depth : Nat
deriving DecidableEq

/-- Base case of the CTE: (id, id, 0) for every agent with no identity link. -/
def baseClusters (agents : List Nat) (links : List LinkRow) : List ClusterRow :=
  (agents.filter fun a => !(links.any fun l => l.primary == a || l.linked == a)).map
    fun a => ⟨a, a, 0⟩

/-- Recursive case of the CTE applied to the rows of the previous iteration:
join on links touching the cluster_id, producing
(root, COALESCE(linked, primary) = linked, depth+1) for rows with depth < 10. -/
def clusterStep (links : List LinkRow) (w : List ClusterRow) : List ClusterRow :=
  w.foldr (fun r acc =>
    (if r.depth < 10 then
      (links.filter fun l => l.primary == r.cluster || l.linked == r.cluster).map
        fun l => ⟨r.root, l.linked, r.depth + 1⟩
     else []) ++ acc) []

/-- UNION ALL accumulation of the recursive CTE; the depth < 10 guard makes
12 iterations exhaustive. -/
def clusterIterate (links : List LinkRow) : Nat → List ClusterRow → List ClusterRow
  | 0, w => w
  | fuel + 1, w => w ++ clusterIterate links fuel (clusterStep links w)

/-- The full agent_clusters row set. -/
def agentClusters (agents : List Nat) (links : List LinkRow) : List ClusterRow :=
  clusterIterate links 12 (baseClusters agents links)

/-- The GROUP BY key of canonical_agents:
CASE WHEN root = cluster THEN root ELSE LEAST(root, cluster) END. -/
def clusterKey (r : ClusterRow) : Nat :=
  if r.root = r.cluster then r.root else min r.root r.cluster

/-- First-occurrence deduplication (SQL DISTINCT), with a seen accumulator. -/
def dedupKeepFirstAux : List Nat → List Nat → List Nat
  | [], _ => []
  | h :: t, seen =>
      if h ∈ seen then dedupKeepFirstAux t seen
      else h :: dedupKeepFirstAux t (h :: seen)

/-- First-occurrence deduplication of a list (SQL DISTINCT). -/
def dedupKeepFirst (l : List Nat) : List Nat := dedupKeepFirstAux l []

/-- SQL MIN over a list of ids (0 on the empty list, which cannot occur for
a GROUP BY group). -/
def natListMin : List Nat → Nat
  | [] => 0
  | x :: xs => xs.foldl min x

/-- canonical_agents: group agent_clusters rows by clusterKey; for each group
compute MIN(root), the distinct cluster ids and their count, and keep only
groups with more than one distinct cluster id (HAVING COUNT(DISTINCT) > 1). -/
def canonicalAgents (rows : List ClusterRow) : List (Nat × List Nat × Nat) :=
  (dedupKeepFirst (rows.map clusterKey)).foldr (fun k acc =>
    (if 1 < (dedupKeepFirst ((rows.filter fun r => clusterKey r == k).map
        fun r => r.cluster)).length then
      [(natListMin ((rows.filter fun r => clusterKey r == k).map fun r => r.root),
        dedupKeepFirst ((rows.filter fun r => clusterKey r == k).map fun r => r.cluster),
        (dedupKeepFirst ((rows.filter fun r => clusterKey r == k).map
          fun r => r.cluster)).length)]
     else []) ++ acc) []

/-- An agent_unified_profiles row. -/
structure UnifiedProfile where
  primary_agent_id : Nat
  linked_agent_ids : List Nat
  profile_type : String
deriving DecidableEq

/-- createUnifiedProfiles: the INSERT built from canonical_agents, with the
profile_type CASE on cluster size. -/
def createUnifiedProfiles (agents : List Nat) (links : List LinkRow) : List UnifiedProfile :=
  (canonicalAgents (agentClusters agents links)).map fun g =>
    ⟨g.1, g.2.1,
     if 5 ≤ g.2.2 then "network" else if 3 ≤ g.2.2 then "multi_account" else "linked"⟩

/-! ## Network analyzer: temporal correlation edges (addTemporalInteractionEdges)

The SQL query groups posts of the trailing window by (agent_id, hour-of-day)
and keeps buckets with COUNT(*) > 2 (the rows below are exactly those
buckets).  The JS then groups rows by hour (Map insertion order = first
occurrence), and for every hour shared by two agents present in the node
set creates the pair's edge with weight 0.4 on first encounter and adds 0.2
(and the hour) on each further shared hour.  Rational constants are written
with Rat.divInt (0.4 = 2/5, 0.2 = 1/5) so that concrete runs reduce in the
kernel. -/

/-- A qualifying bucket row of the temporal-correlation query:
(agent_id, activity_hour, activity_count), one per agent and hour-of-day
with more than 2 posts. -/
structure TempRow where
  agent_id : Nat
  hour : Nat
  count : Nat
deriving DecidableEq

/-- A temporal_correlation edge: endpoints, accumulated weight, and the
overlapping_hours metadata list. -/
structure TEdge where
  source : Nat
  target : Nat
  weight : ℚ
  hours : List Nat
deriving DecidableEq

/-- The agents listed under one hour bucket of hourlyActivity, in row order. -/
def agentsAtHour (rows : List TempRow) (h : Nat) : List Nat :=
  (rows.filter fun r => r.hour == h).map fun r => r.agent_id

/-- All index-ordered pairs (i < j) of a list, as produced by the nested
for-loops over one hour's agents. -/
def listPairs : List Nat → List (Nat × Nat)
  | [] => []
  | x :: t => (t.map fun y => (x, y)) ++ listPairs t

/-- The edge id `min-max` used to key the edges map. -/
def pairKey (a b : Nat) : Nat × Nat := (min a b, max a b)

/-- Processing one agent pair at hour h: if both agents are nodes, either
strengthen the existing edge for the pair's key (weight += 0.2, push the
hour) or create it with weight 0.4 and hours [h]. -/
def addPair (nodes : List Nat) (h : Nat) (p : Nat × Nat) (es : List TEdge) : List TEdge :=
  if p.1 ∈ nodes ∧ p.2 ∈ nodes then
    if es.any fun e => pairKey e.source e.target == pairKey p.1 p.2 then
      es.map fun e =>
        if pairKey e.source e.target == pairKey p.1 p.2 then
          { e with weight := e.weight + Rat.divInt 1 5, hours := e.hours ++ [h] }
        else e
    else es ++ [⟨p.1, p.2, Rat.divInt 2 5, [h]⟩]
  else es

/-- Processing one hour bucket: all ordered pairs of its agents, only when
the bucket holds more than one agent. -/
def hourPass (nodes : List Nat) (rows : List TempRow) (h : Nat) (es : List TEdge) : List TEdge :=
  if 1 < (agentsAtHour rows h).length then
    (listPairs (agentsAtHour rows h)).foldl (fun es p => addPair nodes h p es) es
  else es

/-- addTemporalInteractionEdges: fold the hour buckets (in first-occurrence
order) over an initially empty edge map. -/
def temporalEdges (nodes : List Nat) (rows : List TempRow) : List TEdge :=
  (dedupKeepFirst (rows.map fun r => r.hour)).foldl
    (fun es h => hourPass nodes rows h es) []

/-- Look up the edge stored under the unordered pair key of (a, b). -/
def findTemporalEdge (es : List TEdge) (a b : Nat) : Option TEdge :=
  es.find? fun e => pairKey e.source e.target == pairKey a b

/-- The hours in which both agents have a qualifying bucket — the pair's
overlapping hourly activity buckets. -/
def sharedHours (rows : List TempRow) (a b : Nat) : List Nat :=
  (dedupKeepFirst (rows.map fun r => r.hour)).filter fun h =>
    decide (a ∈ agentsAtHour rows h) && decide (b ∈ agentsAtHour rows h)

/-- Whether an ordered pair addresses the unordered key of (a, b). -/
def pairMatch (a b : Nat) (p : Nat × Nat) : Bool := pairKey p.1 p.2 == pairKey a b

/-- The edge weight after k shared hours: 0.4 + 0.2*(k-1). -/
def bumpWeight (k : Nat) : ℚ := Rat.divInt 2 5 + ((k : ℚ) - 1) * Rat.divInt 1 5

/-- Loop invariant for the temporal-edge accumulation, tracking the edge
stored under (a, b)'s key after k shared hours have been processed. -/
def QInv (a b : Nat) (k : Nat) (r : Option TEdge) : Prop :=
  (k = 0 ∧ r = none) ∨ (1 ≤ k ∧ ∃ e, r = some e ∧ e.weight = bumpWeight k)

/-! ## Network analyzer: community detection (detectCommunityStructures)

Adjacency lists are built from edges whose endpoints are both nodes; a
weighted flood fill (exploreWeightedCommunity) from each unvisited node
follows only neighbors of weight strictly above the threshold (default 0.3,
written Rat.divInt 3 10 so concrete runs reduce in the kernel); communities
of size 1 are discarded, and the result is sorted by size * average weight.
The sha256 community id and the dominant-type tally are omitted from the
model: no claim mentions them. -/

/-- The adjacency list entry list of vertex v (neighbor, weight), built in
edge order with both directions pushed per edge. -/
def adjOf (nodes : List Nat) (edges : List IEdge) (v : Nat) : List (Nat × ℚ) :=
  edges.foldr (fun e acc =>
    (if e.source ∈ nodes ∧ e.target ∈ nodes then
      (if e.source == v then [(e.target, e.weight)] else []) ++
      (if e.target == v then [(e.source, e.weight)] else [])
     else []) ++ acc) []

/-- The community accumulator of exploreWeightedCommunity:
member nodes (in visit order), total traversed weight, traversed edge count. -/
structure CommunityAcc where
  nodes : List Nat
  total_weight : ℚ
  edges : Nat

/-- The BFS loop of exploreWeightedCommunity: pop the queue, skip visited
nodes, push unvisited neighbors above the threshold, accumulating weight
and edge count at push time.  Fuel bounds the loop; any fuel beyond the
total number of queue insertions yields the drained result. -/
def bfsGo (adj : Nat → List (Nat × ℚ)) (threshold : ℚ) :
    Nat → List Nat → List Nat → CommunityAcc → (List Nat × CommunityAcc)
  | 0, _, visited, acc => (visited, acc)
  | _ + 1, [], visited, acc => (visited, acc)
  | fuel + 1, nodeId :: queue, visited, acc =>
    if nodeId ∈ visited then bfsGo adj threshold fuel queue visited acc
    else
      let visited2 := nodeId :: visited
      let next := (adj nodeId).filter fun p =>
        decide (p.1 ∉ visited2) && decide (threshold < p.2)
      bfsGo adj threshold fuel (queue ++ next.map fun p => p.1) visited2
        ⟨acc.nodes ++ [nodeId], acc.total_weight + (next.map fun p => p.2).sum,
         acc.edges + next.length⟩

/-- The default edge-weight threshold 0.3 of exploreWeightedCommunity. -/
def defaultThreshold : ℚ := Rat.divInt 3 10

/-- A detected community: member nodes, total weight, average weight,
density (sha256 id and dominant type omitted — no claim mentions them). -/
structure Community where
  nodes : List Nat
  total_weight : ℚ
  avg_weight : ℚ
  density : ℚ
deriving Inhabited

/-- The visited-set/community accumulation loop of detectCommunityStructures:
explore from each unvisited node and keep communities of more than one node,
recording total, average (total/edges) and density (edges / (n*(n-1)/2)). -/
def communityFold (nodes : List Nat) (edges : List IEdge) : List Nat × List Community :=
  nodes.foldl (fun st v =>
    if v ∈ st.1 then st
    else
      let r := bfsGo (adjOf nodes edges) defaultThreshold
        (1 + nodes.length + 2 * edges.length) [v] st.1 ⟨[], 0, 0⟩
      if 1 < r.2.nodes.length then
        (r.1, st.2 ++ [⟨r.2.nodes, r.2.total_weight,
          r.2.total_weight / (r.2.edges : ℚ),
          (r.2.edges : ℚ) / ((r.2.nodes.length : ℚ) * ((r.2.nodes.length : ℚ) - 1) / 2)⟩])
      else (r.1, st.2)) ([], [])

/-- detectCommunityStructures: the accumulated communities, sorted by
size * average weight descending. -/
def detectCommunityStructures (nodes : List Nat) (edges : List IEdge) : List Community :=
  (communityFold nodes edges).2.mergeSort fun a b =>
    decide ((b.nodes.length : ℚ) * b.avg_weight ≤ (a.nodes.length : ℚ) * a.avg_weight)

/-- The spec's community-detection scenario: 5 nodes. -/
def scenarioNodes : List Nat := [1, 2, 3, 4, 5]

/-- The spec's community-detection scenario: nodes 1-2-3 pairwise connected
with weight 0.5 and an edge 4-5 of weight 0.1. -/
def scenarioEdges : List IEdge :=
  [⟨1, 2, Rat.divInt 1 2⟩, ⟨1, 3, Rat.divInt 1 2⟩, ⟨2, 3, Rat.divInt 1 2⟩,
   ⟨4, 5, Rat.divInt 1 10⟩]

/-! ## Theorems -/

/-- Rows that no link touches generate no recursive CTE rows. -/
theorem clusterStep_eq_nil (links : List LinkRow) (w : List ClusterRow)
    (h : ∀ r ∈ w, (links.filter fun l => l.primary == r.cluster || l.linked == r.cluster) = []) :
    clusterStep links w = [] := by
  induction w with
  | nil => rfl
  | cons r t ih =>
    rw [clusterStep, List.foldr_cons]
    have hr := h r (List.mem_cons_self r t)
    have ht : clusterStep links t = [] :=
      ih fun x hx => h x (List.mem_cons_of_mem r hx)
    rw [clusterStep] at ht
    rw [ht, List.append_nil, hr]
    by_cases hd : r.depth < 10
    · rw [if_pos hd]
      rfl
    · rw [if_neg hd]

/-- One step from no rows yields no rows. -/
theorem clusterStep_nil (links : List LinkRow) : clusterStep links [] = [] := rfl

/-- Iterating from no rows yields no rows. -/
theorem clusterIterate_nil (links : List LinkRow) (fuel : Nat) :
    clusterIterate links fuel [] = [] := by
  induction fuel with
  | zero => rfl
  | succ n ih =>
    rw [clusterIterate, clusterStep_nil, ih]
    rfl

/-- Every base row is link-free and has root = cluster. -/
theorem baseClusters_no_links (agents : List Nat) (links : List LinkRow) :
    ∀ r ∈ baseClusters agents links,
      (links.filter fun l => l.primary == r.cluster || l.linked == r.cluster) = [] ∧
      r.root = r.cluster := by
  intro r hr
  rw [baseClusters] at hr
  obtain ⟨a, ha, rfl⟩ := List.mem_map.mp hr
  have := (List.mem_filter.mp ha).2
  have hnone : (links.any fun l => l.primary == a || l.linked == a) = false := by
    simpa using this
  refine ⟨?_, rfl⟩
  rw [List.filter_eq_nil_iff]
  intro l hl
  have := List.any_eq_false.mp hnone l hl
  simpa using this

/-- The CTE never gets past its base case: the seed rows are exactly the
link-free agents, which generate no recursive rows. -/
theorem agentClusters_eq_base (agents : List Nat) (links : List LinkRow) :
    agentClusters agents links = baseClusters agents links := by
  rw [agentClusters, clusterIterate]
  rw [clusterStep_eq_nil links _ (fun r hr => (baseClusters_no_links agents links r hr).1)]
  rw [clusterIterate_nil]
  exact List.append_nil _

/-- Deduplicating a constant list leaves at most one element (seen-set form). -/
theorem dedupKeepFirstAux_const (l : List Nat) (k : Nat) (seen : List Nat)
    (h : ∀ x ∈ l, x = k) :
    (dedupKeepFirstAux l seen).length ≤ if k ∈ seen then 0 else 1 := by
  induction l generalizing seen with
  | nil =>
    rw [dedupKeepFirstAux]
    simp only [List.length_nil]
    omega
  | cons a t ih =>
    have ha : a = k := h a (List.mem_cons_self a t)
    subst ha
    have ht : ∀ x ∈ t, x = a := fun x hx => h x (List.mem_cons_of_mem a hx)
    rw [dedupKeepFirstAux]
    by_cases hs : a ∈ seen
    · rw [if_pos hs, if_pos hs]
      have := ih seen ht
      rw [if_pos hs] at this
      exact this
    · rw [if_neg hs, if_neg hs]
      have := ih (a :: seen) ht
      rw [if_pos (List.mem_cons_self a seen)] at this
      simp only [List.length_cons]
      omega

/-- Deduplicating a constant list leaves at most one element. -/
theorem dedupKeepFirst_const (l : List Nat) (k : Nat) (h : ∀ x ∈ l, x = k) :
    (dedupKeepFirst l).length ≤ 1 := by
  have := dedupKeepFirstAux_const l k [] h
  rw [dedupKeepFirst]
  simpa using this

/-- A fold appending empty contributions stays empty. -/
theorem foldr_append_nil {α : Type} (keys : List Nat) (f : Nat → List α)
    (hf : ∀ k, f k = []) :
    keys.foldr (fun k acc => f k ++ acc) [] = [] := by
  induction keys with
  | nil => rfl
  | cons k ks ih =>
    rw [List.foldr_cons, ih, hf k]
    rfl

/-- When every row has root = cluster, every group has a single distinct
cluster id and the HAVING > 1 filter drops it. -/
theorem canonicalAgents_all_root_eq (rows : List ClusterRow)
    (hroot : ∀ r ∈ rows, r.root = r.cluster) :
    canonicalAgents rows = [] := by
  rw [canonicalAgents]
  apply foldr_append_nil
  intro k
  have hgrp : ∀ r ∈ rows.filter (fun r => clusterKey r == k), r.cluster = k := by
    intro r hr
    have h1 := List.mem_filter.mp hr
    have h2 : clusterKey r = k := by simpa using h1.2
    have h3 := hroot r h1.1
    rw [clusterKey, if_pos h3] at h2
    rw [← h3, h2]
  have hlen : (dedupKeepFirst ((rows.filter fun r => clusterKey r == k).map
      fun r => r.cluster)).length ≤ 1 := by
    apply dedupKeepFirst_const _ k
    intro x hx
    obtain ⟨r, hr, rfl⟩ := List.mem_map.mp hx
    exact hgrp r hr
  rw [if_neg (by omega)]

/-- C4, counter-evidence: createUnifiedProfiles inserts no profile row for
ANY set of agents and identity links — the CTE base case admits only
link-free agents, those rows produce no recursive rows, and the HAVING
cluster_size > 1 filter then drops every (singleton) group.  In particular
two linked agents 1-2 (plus an isolated agent 3) end up in no Unified
Profile at all, contradicting the claimed one-profile-per-agent partition. -/
theorem createUnifiedProfiles_inserts_nothing :
    (∀ (agents : List Nat) (links : List LinkRow), createUnifiedProfiles agents links = []) ∧
    createUnifiedProfiles [1, 2, 3] [⟨1, 2⟩] = [] := by
  have hall : ∀ (agents : List Nat) (links : List LinkRow),
      createUnifiedProfiles agents links = [] := by
    intro agents links
    rw [createUnifiedProfiles, agentClusters_eq_base]
    rw [canonicalAgents_all_root_eq _
      (fun r hr => (baseClusters_no_links agents links r hr).2)]
    rfl
  exact ⟨hall, hall [1, 2, 3] [⟨1, 2⟩]⟩

/-- A list of non-negative rationals has non-negative sum. -/
theorem list_sum_nonneg (l : List ℚ) (h : ∀ w ∈ l, 0 ≤ w) : 0 ≤ l.sum := by
  induction l with
  | nil => simp
  | cons a t ih =>
    rw [List.sum_cons]
    have ha := h a (List.mem_cons_self a t)
    have ht := ih fun w hw => h w (List.mem_cons_of_mem a hw)
    linarith

/-- A non-empty list whose elements all exceed c has sum above length * c. -/
theorem length_mul_lt_sum (l : List ℚ) (c : ℚ) (hne : l ≠ []) (h : ∀ w ∈ l, c < w) :
    (l.length : ℚ) * c < l.sum := by
  induction l with
  | nil => exact absurd rfl hne
  | cons a t ih =>
    rw [List.sum_cons, List.length_cons]
    have ha := h a (List.mem_cons_self a t)
    rcases eq_or_ne t [] with rfl | ht
    · simp
      linarith
    · have hht := ih ht fun w hw => h w (List.mem_cons_of_mem a hw)
      push_cast
      linarith

/-- Filtering an edge list with non-negative weights cannot increase the
total weight. -/
theorem filtered_weight_sum_le (l : List IEdge) (p : IEdge → Bool)
    (h : ∀ e ∈ l, 0 ≤ e.weight) :
    ((l.filter p).map fun e => e.weight).sum ≤ (l.map fun e => e.weight).sum := by
  induction l with
  | nil => simp
  | cons a t ih =>
    have ha := h a (List.mem_cons_self a t)
    have iht := ih fun e he => h e (List.mem_cons_of_mem a he)
    by_cases hp : p a
    · rw [List.filter_cons_of_pos hp]
      simp only [List.map_cons, List.sum_cons]
      linarith
    · rw [List.filter_cons_of_neg (by simpa using hp)]
      simp only [List.map_cons, List.sum_cons]
      linarith

/-- The amplification trigger is unsatisfiable over non-negative weights:
with n > 5 incident edges, the count of edges of weight strictly above
1.5 * (sum/n) can never reach 0.7 * n, since those edges alone would sum to
more than 1.05 times the total. -/
theorem amplification_trigger_impossible (connected : List IEdge)
    (h0 : ∀ e ∈ connected, 0 ≤ e.weight) (h5 : 5 < connected.length) :
    ¬ ((connected.length : ℚ) * (7/10) ≤
        (((connected.filter fun e =>
            decide (((connected.map fun e => e.weight).sum / (connected.length : ℚ)) * (15/10)
              < e.weight)).length : ℚ))) := by
  intro hle
  set S := (connected.map fun e => e.weight).sum with hS
  set n := connected.length with hn
  set c := S / (n : ℚ) * (15/10) with hc
  set hs := connected.filter fun e => decide (c < e.weight) with hhs
  have hS0 : 0 ≤ S := by
    apply list_sum_nonneg
    intro w hw
    obtain ⟨e, he, rfl⟩ := List.mem_map.mp hw
    exact h0 e he
  have hn0 : (0 : ℚ) < (n : ℚ) := by
    have : 0 < n := by omega
    exact_mod_cast this
  have hc0 : 0 ≤ c := by
    rw [hc]
    positivity
  have h6 : (6 : ℚ) ≤ (n : ℚ) := by exact_mod_cast h5
  have hhge1 : 1 ≤ hs.length := by
    by_contra hcon
    push_neg at hcon
    have hl : hs.length = 0 := by omega
    rw [hl] at hle
    push_cast at hle
    nlinarith
  have hmem : ∀ w ∈ hs.map fun e => e.weight, c < w := by
    intro w hw
    obtain ⟨e, he, rfl⟩ := List.mem_map.mp hw
    have := List.mem_filter.mp he
    exact of_decide_eq_true this.2
  have hne : hs.map (fun e => e.weight) ≠ [] := by
    intro hcon
    have h1 : hs = [] := by
      cases hhs2 : hs with
      | nil => rfl
      | cons a t => rw [hhs2] at hcon; simp at hcon
    rw [h1] at hhge1
    simp at hhge1
  have hlt : ((hs.map fun e => e.weight).length : ℚ) * c < (hs.map fun e => e.weight).sum :=
    length_mul_lt_sum _ c hne hmem
  rw [List.length_map] at hlt
  have hle2 : (hs.map fun e => e.weight).sum ≤ S := by
    rw [hS, hhs]
    exact filtered_weight_sum_le connected _ h0
  have hchain : (n : ℚ) * (7/10) * c ≤ (hs.length : ℚ) * c :=
    mul_le_mul_of_nonneg_right hle hc0
  have hkey : (n : ℚ) * (7/10) * c = (21/20) * S := by
    rw [hc]
    field_simp
    ring
  nlinarith

/-- C10: on any interaction graph whose edge weights are all non-negative,
findAmplificationNetworks returns no pattern, because its trigger (more than
5 incident edges of which at least 70% weigh strictly more than 1.5 times
the node's mean incident weight) is arithmetically unsatisfiable. -/
theorem amplification_networks_always_empty (nodes : List Nat) (edges : List IEdge)
    (h0 : ∀ e ∈ edges, 0 ≤ e.weight) :
    findAmplificationNetworks nodes edges = [] := by
  rw [findAmplificationNetworks]
  induction nodes with
  | nil => rfl
  | cons v vs ih =>
    rw [List.foldr_cons, ih, List.append_nil]
    set connected := edges.filter fun e => e.source == v || e.target == v with hconn
    have hcw : ∀ e ∈ connected, 0 ≤ e.weight := by
      intro e he
      exact h0 e (List.mem_filter.mp he).1
    by_cases h5 : 5 < connected.length
    · rw [if_pos h5]
      rw [if_neg (amplification_trigger_impossible connected hcw h5)]
    · rw [if_neg h5]

/-- Witness for C10 on a concrete 3-node graph with non-negative weights. -/
theorem amplification_networks_always_empty_witness :
    findAmplificationNetworks [1, 2, 3] [⟨1, 2, 1⟩, ⟨2, 3, 1/2⟩] = [] := by
  apply amplification_networks_always_empty
  intro e he
  simp only [List.mem_cons] at he
  rcases he with rfl | rfl | he
  · norm_num
  · norm_num
  · simp at he

/-- C1: for every agent with at least one reputation sub-score row, the
composite score written by calculateCompositeScore equals the weighted sum
0.20*moltbook + 0.20*moltx + 0.10*4claw + 0.25*engagement_quality +
0.20*security_record + 0.05*longevity over the COALESCEd (missing → 0)
sub-scores, clamped to [0,100]; the recorded factor breakdown reconstructs
this sum exactly, and the written score lies in [0,100]. -/
theorem composite_score_reconstruction (s : SubScores) (h : hasSubScore s = true) :
    compositeRow s =
      some (min 100 (max 0 (reconstructComposite (factorBreakdown s))), factorBreakdown s) ∧
    0 ≤ compositeScore s ∧ compositeScore s ≤ 100 := by
  have key : compositeScore s = min 100 (max 0 (reconstructComposite (factorBreakdown s))) := by
    unfold compositeScore reconstructComposite factorBreakdown
    congr 2
    ring
  refine ⟨?_, ?_, ?_⟩
  · rw [compositeRow, if_pos h, key]
  · rw [compositeScore]
    exact le_min (by norm_num) (le_max_left 0 _)
  · rw [compositeScore]
    exact min_le_left _ _

/-- Witness for C1 at a concrete agent holding only a moltbook sub-score of 50. -/
theorem composite_score_reconstruction_witness :
    compositeRow ⟨some 50, none, none, none, none, none⟩ =
      some (min 100 (max 0 (reconstructComposite
              (factorBreakdown ⟨some 50, none, none, none, none, none⟩))),
            factorBreakdown ⟨some 50, none, none, none, none, none⟩) ∧
    0 ≤ compositeScore ⟨some 50, none, none, none, none, none⟩ ∧
    compositeScore ⟨some 50, none, none, none, none, none⟩ ≤ 100 :=
  composite_score_reconstruction _ rfl

/-- C3, counter-evidence: the fuzzy-match ON CONFLICT clause stores the newly
computed confidence (GREATEST(EXCLUDED.confidence, $3) where both sides are
the new value), not max(old, new): for an existing pair with stored
confidence 0.95 and a newly computed confidence 0.8 it writes 0.8, a
decrease, while the exact-match clause keeps 0.95 as the claim states. -/
theorem fuzzy_upsert_overwrites :
    fuzzyMatchUpsert (some (95/100)) (80/100) = 80/100 ∧
    (80/100 : ℚ) < 95/100 ∧
    exactMatchUpsert (some (95/100)) (80/100) = 95/100 := by
  refine ⟨?_, by norm_num, ?_⟩
  · simp [fuzzyMatchUpsert]
  · rw [exactMatchUpsert]
    rw [max_eq_right (by norm_num : (80/100 : ℚ) ≤ 95/100)]

/-- C6, counter-evidence: the credential_harvesting signal has
risk_score = 0.8 + 0.05*suspicious_skills with no upper cap, so an author
with 5 qualifying skills (passing the HAVING COUNT(*) > 2 filter) receives
risk 1.05 > 1, violating the risk ∈ [0,1] invariant. -/
theorem credential_harvesting_risk_exceeds_one :
    credentialHarvestingEmitted 5 = true ∧
    credentialHarvestingRisk 5 = 21/20 ∧
    (1 : ℚ) < credentialHarvestingRisk 5 := by
  refine ⟨rfl, ?_, ?_⟩ <;> norm_num [credentialHarvestingRisk]

/-- C9, counter-evidence: the sock_puppet_network INSERT filters only on
account_count >= 3; the creation-time variance is recorded as a JSON flag
but never used as a condition, so a cluster of 4 accounts whose creation
times have a variance of a full year (far above the claimed < 1 day window)
is still flagged with severity "medium" (and creation_cluster = false). -/
theorem sock_puppet_flag_ignores_variance :
    sockPuppetAlert 4 (86400 * 365) = some ("medium", false) ∧
    ¬ ((86400 * 365 : ℚ) < 86400) := by
  constructor
  · rw [sockPuppetAlert, if_pos (by norm_num)]
    have h1 : sockPuppetSeverity 4 = "medium" := rfl
    have h2 : decide ((86400 * 365 : ℚ) < 86400) = false := by
      rw [decide_eq_false_iff_not]
      norm_num
    rw [h1, h2]
  · norm_num

/-- C5: stringSimilarity is Levenshtein distance normalized by the longer
string's length: identical non-empty strings score 1.0, an empty argument
scores 0.0, and similarity("kitten", "sitting") = (7-3)/7 with edit
distance 3 over the longer length 7. -/
theorem string_similarity_spec :
    (∀ s : List Char, s ≠ [] → stringSimilarity s s = 1) ∧
    (∀ a b : List Char, a = [] ∨ b = [] → stringSimilarity a b = 0) ∧
    levenshteinDistance "sitting".data "kitten".data = 3 ∧
    stringSimilarity "kitten".data "sitting".data = 4/7 := by
  refine ⟨?_, ?_, by decide, ?_⟩
  · intro s h
    rw [stringSimilarity]
    rw [if_neg (by simp [h]), if_pos (by simp)]
  · intro a b h
    rcases h with h | h <;> subst h <;> rw [stringSimilarity] <;> simp
  · have h1 : jsTrim (jsLower "kitten".data) = "kitten".data := by decide
    have h2 : jsTrim (jsLower "sitting".data) = "sitting".data := by decide
    have h4 : levenshteinDistance ['s', 'i', 't', 't', 'i', 'n', 'g']
        ['k', 'i', 't', 't', 'e', 'n'] = 3 := by decide
    rw [stringSimilarity]
    rw [if_neg (by decide)]
    simp only [h1, h2]
    rw [if_neg (by decide)]
    norm_num [h4]

/-- Witness for C5 at concrete strings: similarity("clawdbot","clawdbot") = 1
and similarity("a", "") = 0. -/
theorem string_similarity_spec_witness :
    stringSimilarity "clawdbot".data "clawdbot".data = 1 ∧
    stringSimilarity "a".data [] = 0 :=
  ⟨string_similarity_spec.1 _ (by decide), string_similarity_spec.2.1 _ _ (Or.inr rfl)⟩

/-- C2: correlateThreats groups signals by the agent/author key; for a key
shared by n > 1 signals each signal's risk becomes
min(risk * (1 + 0.2*(n-1)), 1.0) with the boost recorded, while a signal
whose key has no other signal is returned unchanged; three signals of base
risk 0.5 on one agent each end with risk 0.7. -/
theorem correlate_threats_boost :
    (∀ (ts : List ThreatSignal) (i : Nat) (t : ThreatSignal) (n : Nat), ts[i]? = some t →
      n = (ts.filter fun u => signalKey u == signalKey t).length →
      (1 < n →
        (boostSignals ts)[i]? = some
          { t with risk_score := min (t.risk_score * (1 + ((n : ℚ) - 1) * (2/10))) 1,
                   correlation_boost := some (1 + ((n : ℚ) - 1) * (2/10)) }) ∧
      (n = 1 → (boostSignals ts)[i]? = some t)) ∧
    (correlateThreats [baseHalf, baseHalf, baseHalf]).map (fun t => t.risk_score) =
      [7/10, 7/10, 7/10] := by
  constructor
  · intro ts i t n h hn
    subst hn
    have hmap : (boostSignals ts)[i]? = some
        (if 1 < (ts.filter fun u => signalKey u == signalKey t).length then
          { t with
            risk_score := min (t.risk_score *
              (1 + (((ts.filter fun u => signalKey u == signalKey t).length : ℚ) - 1) * (2/10))) 1,
            correlation_boost :=
              some (1 + (((ts.filter fun u => signalKey u == signalKey t).length : ℚ) - 1) * (2/10)) }
        else t) := by
      rw [boostSignals, List.getElem?_map, h]
      rfl
    constructor
    · intro h1
      rw [hmap, if_pos h1]
    · intro h1
      rw [hmap, if_neg (by omega)]
  · have hb : boostSignals [baseHalf, baseHalf, baseHalf] = List.replicate 3 boostedHalf := by
      simp only [boostSignals, baseHalf, boostedHalf, signalKey, jsStringOr,
        List.map, List.filter]
      norm_num [List.replicate]
    rw [correlateThreats, hb]
    have hmem : ∀ b ∈ (List.replicate 3 boostedHalf).mergeSort
        (fun a b => decide (b.risk_score ≤ a.risk_score)), b = boostedHalf := by
      intro b hb2
      exact List.eq_of_mem_replicate
        ((List.mergeSort_perm (List.replicate 3 boostedHalf) _).mem_iff.mp hb2)
    have hlen : ((List.replicate 3 boostedHalf).mergeSort
        (fun a b => decide (b.risk_score ≤ a.risk_score))).length
        = (List.replicate 3 boostedHalf).length := List.length_mergeSort _
    have hsorted : (List.replicate 3 boostedHalf).mergeSort
        (fun a b => decide (b.risk_score ≤ a.risk_score)) = List.replicate 3 boostedHalf := by
      calc (List.replicate 3 boostedHalf).mergeSort (fun a b => decide (b.risk_score ≤ a.risk_score))
          = List.replicate ((List.replicate 3 boostedHalf).mergeSort
              (fun a b => decide (b.risk_score ≤ a.risk_score))).length boostedHalf :=
            List.eq_replicate_of_mem hmem
        _ = List.replicate 3 boostedHalf := by rw [hlen]; simp
    rw [hsorted]
    simp [boostedHalf, List.replicate]

/-- Witness for C2: in the three-signal group the first signal's boosted form
has risk 0.7 and boost 1.4. -/
theorem correlate_threats_boost_witness :
    (boostSignals [baseHalf, baseHalf, baseHalf])[0]? = some boostedHalf := by
  have h := (correlate_threats_boost.1 [baseHalf, baseHalf, baseHalf] 0 baseHalf 3
    rfl (by decide)).1 (by norm_num)
  rw [h]
  congr 1
  simp only [baseHalf, boostedHalf]
  norm_num

/-- Every community accumulated by the fold has more than one node. -/
theorem communityFold_min_size (nodes : List Nat) (edges : List IEdge) :
    ∀ c ∈ (communityFold nodes edges).2, 1 < c.nodes.length := by
  rw [communityFold]
  have main : ∀ (l : List Nat) (st : List Nat × List Community),
      (∀ c ∈ st.2, 1 < c.nodes.length) →
      ∀ c ∈ (l.foldl (fun st v =>
        if v ∈ st.1 then st
        else
          let r := bfsGo (adjOf nodes edges) defaultThreshold
            (1 + nodes.length + 2 * edges.length) [v] st.1 ⟨[], 0, 0⟩
          if 1 < r.2.nodes.length then
            (r.1, st.2 ++ [⟨r.2.nodes, r.2.total_weight,
              r.2.total_weight / (r.2.edges : ℚ),
              (r.2.edges : ℚ) / ((r.2.nodes.length : ℚ) * ((r.2.nodes.length : ℚ) - 1) / 2)⟩])
          else (r.1, st.2)) st).2, 1 < c.nodes.length := by
    intro l
    induction l with
    | nil => intro st h; exact h
    | cons v t ih =>
      intro st h
      rw [List.foldl_cons]
      apply ih
      by_cases hv : v ∈ st.1
      · rw [if_pos hv]
        exact h
      · rw [if_neg hv]
        set r := bfsGo (adjOf nodes edges) defaultThreshold
          (1 + nodes.length + 2 * edges.length) [v] st.1 ⟨[], 0, 0⟩ with hr
        by_cases hs : 1 < r.2.nodes.length
        · rw [if_pos hs]
          intro c hc
          simp only [List.mem_append, List.mem_singleton] at hc
          rcases hc with hc | hc
          · exact h c hc
          · rw [hc]
            exact hs
        · rw [if_neg hs]
          exact h
  exact main nodes ([], []) (by intro c hc; simp at hc)

/-- C7: community detection is a flood fill over the adjacency list crossing
only edges of weight strictly above the 0.3 threshold, discarding every
size-1 community; on the 5-node scenario graph ({1,2,3} pairwise at weight
0.5, 4-5 at weight 0.1) it returns exactly one community {1,2,3} and none
containing node 4 or node 5. -/
theorem community_detection_spec :
    (∀ (nodes : List Nat) (edges : List IEdge) (c : Community),
        c ∈ detectCommunityStructures nodes edges → 1 < c.nodes.length) ∧
    Rat.divInt 1 2 = 1/2 ∧ Rat.divInt 1 10 = 1/10 ∧ defaultThreshold = 3/10 ∧
    (detectCommunityStructures scenarioNodes scenarioEdges).map (fun c => c.nodes) =
      [[1, 2, 3]] := by
  refine ⟨?_, ?_, ?_, ?_, ?_⟩
  · intro nodes edges c hc
    rw [detectCommunityStructures] at hc
    exact communityFold_min_size nodes edges c
      ((List.mergeSort_perm _ _).mem_iff.mp hc)
  · rw [Rat.divInt_eq_div]
    norm_num
  · rw [Rat.divInt_eq_div]
    norm_num
  · rw [defaultThreshold, Rat.divInt_eq_div]
    norm_num
  · have h : (communityFold scenarioNodes scenarioEdges).2.map (fun c => c.nodes) =
        [[1, 2, 3]] := by decide
    rw [detectCommunityStructures]
    obtain ⟨c, hc, hnodes⟩ : ∃ c, (communityFold scenarioNodes scenarioEdges).2 = [c] ∧
        c.nodes = [1, 2, 3] := by
      cases hl : (communityFold scenarioNodes scenarioEdges).2 with
      | nil =>
        rw [hl] at h
        simp at h
      | cons a t =>
        cases t with
        | nil =>
          rw [hl] at h
          simp at h
          exact ⟨a, rfl, h⟩
        | cons b t2 =>
          rw [hl] at h
          simp at h
    rw [hc, List.mergeSort_singleton]
    simp [hnodes]

/-- Witness for C7: the community found on the scenario graph has more than
one node. -/
theorem community_detection_spec_witness :
    1 < ((detectCommunityStructures scenarioNodes scenarioEdges).head!).nodes.length := by
  have hmap := community_detection_spec.2.2.2.2
  have hne : detectCommunityStructures scenarioNodes scenarioEdges ≠ [] := by
    intro hcon
    rw [hcon] at hmap
    simp at hmap
  exact community_detection_spec.1 _ _ _ (List.head!_mem_self hne)

/-- 0.4 as the first-hour edge weight. -/
theorem bumpWeight_one : bumpWeight 1 = Rat.divInt 2 5 := by
  rw [bumpWeight, Rat.divInt_eq_div, Rat.divInt_eq_div]
  norm_num

theorem bumpWeight_succ (k : Nat) : bumpWeight k + Rat.divInt 1 5 = bumpWeight (k + 1) := by
  rw [bumpWeight, bumpWeight, Rat.divInt_eq_div, Rat.divInt_eq_div]
  push_cast
  ring

theorem pairMatch_iff (a b x y : Nat) (hab : a ≠ b) :
    pairMatch a b (x, y) = true ↔ (x = a ∧ y = b) ∨ (x = b ∧ y = a) := by
  rw [pairMatch, pairKey, pairKey]
  simp only [beq_iff_eq, Prod.mk.injEq]
  omega

theorem find?_map_key (es : List TEdge) (f : TEdge → TEdge) (q : TEdge → Bool)
    (hpres : ∀ e, q (f e) = q e) : (es.map f).find? q = (es.find? q).map f := by
  induction es with
  | nil => rfl
  | cons e t ih =>
    rw [List.map_cons]
    by_cases hq : q e
    · rw [List.find?_cons_of_pos _ (show q (f e) = true by rw [hpres]; exact hq),
        List.find?_cons_of_pos _ hq]
      rfl
    · rw [List.find?_cons_of_neg _ (show ¬ q (f e) = true by rw [hpres]; exact hq),
        List.find?_cons_of_neg _ hq, ih]

theorem find?_map_fix (es : List TEdge) (f : TEdge → TEdge) (q : TEdge → Bool)
    (hpres : ∀ e, q (f e) = q e) (hfix : ∀ e, q e = true → f e = e) :
    (es.map f).find? q = es.find? q := by
  rw [find?_map_key es f q hpres]
  cases hfind : es.find? q with
  | none => rfl
  | some e =>
    have : f e = e := hfix e (List.find?_some hfind)
    rw [Option.map_some', this]

theorem find?_append_right_none (q : TEdge → Bool) (l1 l2 : List TEdge)
    (h : l2.find? q = none) : (l1 ++ l2).find? q = l1.find? q := by
  induction l1 with
  | nil => rw [List.nil_append, h, List.find?_nil]
  | cons e t ih =>
    rw [List.cons_append]
    by_cases hq : q e
    · rw [List.find?_cons_of_pos _ hq, List.find?_cons_of_pos _ hq]
    · rw [List.find?_cons_of_neg _ hq, List.find?_cons_of_neg _ hq, ih]

theorem find?_append_left_none (q : TEdge → Bool) (l1 l2 : List TEdge)
    (h : l1.find? q = none) : (l1 ++ l2).find? q = l2.find? q := by
  induction l1 with
  | nil => rw [List.nil_append]
  | cons e t ih =>
    rw [List.cons_append]
    by_cases hq : q e
    · rw [List.find?_cons_of_pos _ hq] at h
      exact absurd h (by simp)
    · rw [List.find?_cons_of_neg _ hq] at h
      rw [List.find?_cons_of_neg _ hq, ih h]

theorem addPair_preserve (nodes : List Nat) (hr : Nat) (a b : Nat) (p : Nat × Nat)
    (es : List TEdge) (hm : pairMatch a b p = false) :
    findTemporalEdge (addPair nodes hr p es) a b = findTemporalEdge es a b := by
  have hm2 : (pairKey p.1 p.2 == pairKey a b) = false := hm
  rw [addPair]
  by_cases hg : p.1 ∈ nodes ∧ p.2 ∈ nodes
  · rw [if_pos hg]
    by_cases hany : es.any fun e => pairKey e.source e.target == pairKey p.1 p.2
    · rw [if_pos hany, findTemporalEdge, findTemporalEdge]
      apply find?_map_fix
      · intro e
        by_cases he : (pairKey e.source e.target == pairKey p.1 p.2) = true
        · rw [if_pos he]
        · rw [if_neg he]
      · intro e hq
        by_cases he : (pairKey e.source e.target == pairKey p.1 p.2) = true
        · exfalso
          have h1 : pairKey e.source e.target = pairKey p.1 p.2 := beq_iff_eq.mp he
          have h2 : pairKey e.source e.target = pairKey a b := beq_iff_eq.mp hq
          have h3 : (pairKey p.1 p.2 == pairKey a b) = true := by
            rw [← h1, h2]
            exact beq_self_eq_true _
          rw [h3] at hm2
          simp at hm2
        · rw [if_neg he]
    · rw [if_neg hany, findTemporalEdge, findTemporalEdge]
      apply find?_append_right_none
      rw [List.find?_cons_of_neg _ (by simp [hm2]), List.find?_nil]
  · rw [if_neg hg]

theorem addPair_bump (nodes : List Nat) (hr : Nat) (a b : Nat) (p : Nat × Nat)
    (es : List TEdge) (k : Nat) (hm : pairMatch a b p = true)
    (h1 : p.1 ∈ nodes) (h2 : p.2 ∈ nodes)
    (hQ : QInv a b k (findTemporalEdge es a b)) :
    QInv a b (k + 1) (findTemporalEdge (addPair nodes hr p es) a b) := by
  have hpk : pairKey p.1 p.2 = pairKey a b := beq_iff_eq.mp hm
  rw [addPair, if_pos ⟨h1, h2⟩]
  rcases hQ with ⟨hk, hnone⟩ | ⟨hk, e, hsome, hw⟩
  · -- no existing edge for the key: the any-test fails and a new edge is appended
    rw [findTemporalEdge] at hnone
    have hany : (es.any fun e => pairKey e.source e.target == pairKey p.1 p.2) = false := by
      rw [List.any_eq_false]
      intro e he
      have := List.find?_eq_none.mp hnone e he
      rw [hpk]
      simpa using this
    rw [hany]
    simp only [Bool.false_eq_true, if_false]
    right
    refine ⟨by omega, ⟨p.1, p.2, Rat.divInt 2 5, [hr]⟩, ?_, ?_⟩
    · rw [findTemporalEdge]
      rw [find?_append_left_none _ _ _ hnone]
      rw [List.find?_cons_of_pos _ (by simp [hpk])]
    · rw [hk]
      rw [← bumpWeight_one]
  · -- an edge exists: the any-test succeeds and the matching edge is updated
    rw [findTemporalEdge] at hsome
    have hmem := List.mem_of_find?_eq_some hsome
    have hkey := List.find?_some hsome
    have hany : (es.any fun e => pairKey e.source e.target == pairKey p.1 p.2) = true := by
      rw [List.any_eq_true]
      exact ⟨e, hmem, by rw [hpk]; simpa using hkey⟩
    rw [hany, if_pos rfl]
    right
    refine ⟨by omega, ?_⟩
    rw [findTemporalEdge]
    rw [find?_map_key _ _ _ ?hpres]
    case hpres =>
      intro x
      by_cases hx : (pairKey x.source x.target == pairKey p.1 p.2) = true
      · rw [if_pos hx]
      · rw [if_neg hx]
    rw [hsome, Option.map_some']
    have hekey : (pairKey e.source e.target == pairKey p.1 p.2) = true := by
      rw [hpk]
      exact hkey
    rw [if_pos hekey]
    exact ⟨_, rfl, by rw [hw]; exact bumpWeight_succ k⟩

theorem fold_pairs (nodes : List Nat) (hr : Nat) (a b : Nat)
    (ha : a ∈ nodes) (hb : b ∈ nodes) (hab : a ≠ b) :
    ∀ (ps : List (Nat × Nat)) (es : List TEdge) (k : Nat),
      QInv a b k (findTemporalEdge es a b) →
      QInv a b (k + ps.countP (pairMatch a b))
        (findTemporalEdge (ps.foldl (fun es p => addPair nodes hr p es) es) a b) := by
  intro ps
  induction ps with
  | nil =>
    intro es k hQ
    simpa using hQ
  | cons p t ih =>
    intro es k hQ
    rw [List.foldl_cons]
    by_cases hm : pairMatch a b p = true
    · have hcomp : (p.1 = a ∧ p.2 = b) ∨ (p.1 = b ∧ p.2 = a) := by
        have := (pairMatch_iff a b p.1 p.2 hab).mp (by simpa using hm)
        simpa using this
      have hp1 : p.1 ∈ nodes := by rcases hcomp with ⟨h1, _⟩ | ⟨h1, _⟩ <;> rw [h1] <;> assumption
      have hp2 : p.2 ∈ nodes := by rcases hcomp with ⟨_, h2⟩ | ⟨_, h2⟩ <;> rw [h2] <;> assumption
      have hstep := addPair_bump nodes hr a b p es k hm hp1 hp2 hQ
      have := ih _ _ hstep
      rw [List.countP_cons_of_pos _ _ hm]
      have harith : k + (t.countP (pairMatch a b) + 1) = (k + 1) + t.countP (pairMatch a b) := by
        omega
      rw [harith]
      exact this
    · have hm2 : pairMatch a b p = false := by simpa using hm
      have hpres := addPair_preserve nodes hr a b p es hm2
      rw [List.countP_cons_of_neg _ _ (by simp [hm2])]
      exact ih _ _ (by rw [hpres]; exact hQ)

theorem listPairs_mem (l : List Nat) (p : Nat × Nat) (h : p ∈ listPairs l) :
    p.1 ∈ l ∧ p.2 ∈ l := by
  induction l with
  | nil => simp [listPairs] at h
  | cons x t ih =>
    rw [listPairs] at h
    rcases List.mem_append.mp h with h | h
    · obtain ⟨y, hy, rfl⟩ := List.mem_map.mp h
      exact ⟨List.mem_cons_self x t, List.mem_cons_of_mem x hy⟩
    · have := ih h
      exact ⟨List.mem_cons_of_mem x this.1, List.mem_cons_of_mem x this.2⟩

theorem listPairs_countP (a b : Nat) (hab : a ≠ b) (l : List Nat) (hnd : l.Nodup) :
    (listPairs l).countP (pairMatch a b) = if a ∈ l ∧ b ∈ l then 1 else 0 := by
  induction l with
  | nil => simp [listPairs]
  | cons x t ih =>
    have hndt : t.Nodup := hnd.of_cons
    have hxt : x ∉ t := (List.nodup_cons.mp hnd).1
    rw [listPairs, List.countP_append]
    have hmap : (t.map fun y => (x, y)).countP (pairMatch a b) =
        t.countP fun y => pairMatch a b (x, y) := by
      rw [List.countP_map]
      rfl
    by_cases hxa : x = a
    · have hax : a = x := hxa.symm
      subst hax
      have hpm : ∀ y, pairMatch a b (a, y) = (y == b) := by
        intro y
        by_cases hyb : y = b
        · rw [hyb, (pairMatch_iff a b a b hab).mpr (Or.inl ⟨rfl, rfl⟩), beq_self_eq_true]
        · have hf : pairMatch a b (a, y) = false := by
            rw [Bool.eq_false_iff]
            intro hcon
            rcases (pairMatch_iff a b a y hab).mp hcon with ⟨_, hyb2⟩ | ⟨hab2, _⟩
            · exact hyb hyb2
            · exact hab hab2
          rw [hf, beq_eq_false_iff_ne.mpr hyb]
      have hhead : (t.countP fun y => pairMatch a b (a, y)) = t.count b := by
        apply List.countP_congr
        intro y _
        rw [hpm y]
      have htail : (listPairs t).countP (pairMatch a b) = 0 := by
        rw [List.countP_eq_zero]
        intro p hp
        intro hcon
        have hmem := listPairs_mem t p hp
        rcases (pairMatch_iff a b p.1 p.2 hab).mp (by simpa using hcon) with
          ⟨h1, _⟩ | ⟨_, h2⟩
        · exact hxt (h1 ▸ hmem.1)
        · exact hxt (h2 ▸ hmem.2)
      rw [hmap, hhead, htail]
      by_cases hbt : b ∈ t
      · rw [List.count_eq_one_of_mem hndt hbt,
          if_pos ⟨List.mem_cons_self a t, List.mem_cons_of_mem a hbt⟩]
      · rw [List.count_eq_zero.mpr hbt, if_neg ?_]
        intro hcon
        rcases List.mem_cons.mp hcon.2 with hba | hbt2
        · exact hab hba.symm
        · exact hbt hbt2
    · by_cases hxb : x = b
      · have hbx : b = x := hxb.symm
        subst hbx
        have hpm2 : ∀ y, pairMatch a b (b, y) = (y == a) := by
          intro y
          by_cases hya : y = a
          · rw [hya, (pairMatch_iff a b b a hab).mpr (Or.inr ⟨rfl, rfl⟩), beq_self_eq_true]
          · have hf : pairMatch a b (b, y) = false := by
              rw [Bool.eq_false_iff]
              intro hcon
              rcases (pairMatch_iff a b b y hab).mp hcon with ⟨hax, _⟩ | ⟨_, hya2⟩
              · exact hab hax.symm
              · exact hya hya2
            rw [hf, beq_eq_false_iff_ne.mpr hya]
        have hhead : (t.countP fun y => pairMatch a b (b, y)) = t.count a := by
          apply List.countP_congr
          intro y _
          rw [hpm2 y]
        have htail : (listPairs t).countP (pairMatch a b) = 0 := by
          rw [List.countP_eq_zero]
          intro p hp
          intro hcon
          have hmem := listPairs_mem t p hp
          rcases (pairMatch_iff a b p.1 p.2 hab).mp (by simpa using hcon) with
            ⟨_, h2⟩ | ⟨h1, _⟩
          · exact hxt (h2 ▸ hmem.2)
          · exact hxt (h1 ▸ hmem.1)
        rw [hmap, hhead, htail]
        by_cases hat : a ∈ t
        · rw [List.count_eq_one_of_mem hndt hat,
            if_pos ⟨List.mem_cons_of_mem b hat, List.mem_cons_self b t⟩]
        · rw [List.count_eq_zero.mpr hat, if_neg ?_]
          intro hcon
          rcases List.mem_cons.mp hcon.1 with hax | hat2
          · exact hab hax
          · exact hat hat2
      · have hhead : (t.countP fun y => pairMatch a b (x, y)) = 0 := by
          rw [List.countP_eq_zero]
          intro y _
          intro hcon
          rcases (pairMatch_iff a b x y hab).mp (by simpa using hcon) with
            ⟨h1, _⟩ | ⟨h1, _⟩
          · exact hxa h1
          · exact hxb h1
        rw [hmap, hhead, ih hndt]
        by_cases hcond : a ∈ t ∧ b ∈ t
        · rw [if_pos hcond,
            if_pos ⟨List.mem_cons_of_mem x hcond.1, List.mem_cons_of_mem x hcond.2⟩]
        · rw [if_neg hcond, if_neg ?_]
          intro hcon
          apply hcond
          constructor
          · rcases List.mem_cons.mp hcon.1 with h1 | h1
            · exact absurd h1.symm hxa
            · exact h1
          · rcases List.mem_cons.mp hcon.2 with h1 | h1
            · exact absurd h1.symm hxb
            · exact h1

theorem one_lt_length_of_two_mem (l : List Nat) (a b : Nat) (ha : a ∈ l) (hb : b ∈ l)
    (hab : a ≠ b) : 1 < l.length := by
  cases l with
  | nil => simp at ha
  | cons x t =>
    cases t with
    | nil =>
      simp at ha hb
      exact absurd (ha.trans hb.symm) hab
    | cons y t2 =>
      simp only [List.length_cons]
      omega

theorem agentsAtHour_nodup (rows : List TempRow) (hr : Nat)
    (hnodup : (rows.map fun r => (r.agent_id, r.hour)).Nodup) :
    (agentsAtHour rows hr).Nodup := by
  rw [agentsAtHour]
  have hsub : ((rows.filter fun r => r.hour == hr).map fun r => (r.agent_id, r.hour)).Sublist
      (rows.map fun r => (r.agent_id, r.hour)) := (List.filter_sublist _).map _
  have hnd2 := hnodup.sublist hsub
  apply List.Nodup.map_on ?_ (hnd2.of_map _)
  intro r1 h1 r2 h2 heq
  have hh1 : r1.hour = hr := by simpa using (List.mem_filter.mp h1).2
  have hh2 : r2.hour = hr := by simpa using (List.mem_filter.mp h2).2
  have hinj := List.inj_on_of_nodup_map hnd2
  apply hinj h1 h2
  rw [Prod.ext_iff]
  exact ⟨heq, by rw [hh1, hh2]⟩

theorem hourPass_step (nodes : List Nat) (rows : List TempRow) (a b hr : Nat)
    (es : List TEdge) (k : Nat) (hab : a ≠ b) (ha : a ∈ nodes) (hb : b ∈ nodes)
    (hnodup : (rows.map fun r => (r.agent_id, r.hour)).Nodup)
    (hQ : QInv a b k (findTemporalEdge es a b)) :
    QInv a b (k + (if a ∈ agentsAtHour rows hr ∧ b ∈ agentsAtHour rows hr then 1 else 0))
      (findTemporalEdge (hourPass nodes rows hr es) a b) := by
  rw [hourPass]
  by_cases hg : 1 < (agentsAtHour rows hr).length
  · rw [if_pos hg]
    have hfold := fold_pairs nodes hr a b ha hb hab
      (listPairs (agentsAtHour rows hr)) es k hQ
    rw [listPairs_countP a b hab _ (agentsAtHour_nodup rows hr hnodup)] at hfold
    exact hfold
  · rw [if_neg hg]
    have hcond : ¬(a ∈ agentsAtHour rows hr ∧ b ∈ agentsAtHour rows hr) := by
      intro hcon
      exact hg (one_lt_length_of_two_mem _ a b hcon.1 hcon.2 hab)
    rw [if_neg hcond, Nat.add_zero]
    exact hQ

theorem fold_hours (nodes : List Nat) (rows : List TempRow) (a b : Nat)
    (hab : a ≠ b) (ha : a ∈ nodes) (hb : b ∈ nodes)
    (hnodup : (rows.map fun r => (r.agent_id, r.hour)).Nodup) :
    ∀ (hs : List Nat) (es : List TEdge) (k : Nat),
      QInv a b k (findTemporalEdge es a b) →
      QInv a b (k + hs.countP fun h => decide (a ∈ agentsAtHour rows h) &&
          decide (b ∈ agentsAtHour rows h))
        (findTemporalEdge (hs.foldl (fun es h => hourPass nodes rows h es) es) a b) := by
  intro hs
  induction hs with
  | nil =>
    intro es k hQ
    simpa using hQ
  | cons h t ih =>
    intro es k hQ
    rw [List.foldl_cons, List.countP_cons]
    have hstep := hourPass_step nodes rows a b h es k hab ha hb hnodup hQ
    have hrest := ih _ _ hstep
    by_cases hc : a ∈ agentsAtHour rows h ∧ b ∈ agentsAtHour rows h
    · rw [if_pos hc] at hstep hrest
      have hpred : (decide (a ∈ agentsAtHour rows h) &&
          decide (b ∈ agentsAtHour rows h)) = true := by
        simp [hc.1, hc.2]
      rw [hpred]
      simp only [if_true]
      have : k + (t.countP (fun h => decide (a ∈ agentsAtHour rows h) &&
          decide (b ∈ agentsAtHour rows h)) + 1) =
          (k + 1) + t.countP (fun h => decide (a ∈ agentsAtHour rows h) &&
          decide (b ∈ agentsAtHour rows h)) := by omega
      rw [this]
      exact hrest
    · rw [if_neg hc] at hstep hrest
      have hpred : (decide (a ∈ agentsAtHour rows h) &&
          decide (b ∈ agentsAtHour rows h)) = false := by
        rw [Bool.and_eq_false_iff]
        by_cases hca : a ∈ agentsAtHour rows h
        · right
          have : b ∉ agentsAtHour rows h := fun hcb => hc ⟨hca, hcb⟩
          simpa using this
        · left
          simpa using hca
      rw [hpred]
      simp only [Bool.false_eq_true, if_false, Nat.add_zero] at hrest ⊢
      exact hrest

theorem temporal_edge_weight (nodes : List Nat) (rows : List TempRow) (a b : Nat)
    (hab : a ≠ b) (ha : a ∈ nodes) (hb : b ∈ nodes)
    (hnodup : (rows.map fun r => (r.agent_id, r.hour)).Nodup) :
    (sharedHours rows a b = [] ↔ findTemporalEdge (temporalEdges nodes rows) a b = none) ∧
    (sharedHours rows a b ≠ [] →
      ∃ e, findTemporalEdge (temporalEdges nodes rows) a b = some e ∧
        e.weight = Rat.divInt 2 5 +
          (((sharedHours rows a b).length : ℚ) - 1) * Rat.divInt 1 5) := by
  have h0 : QInv a b 0 (findTemporalEdge [] a b) := Or.inl ⟨rfl, rfl⟩
  have hmain := fold_hours nodes rows a b hab ha hb hnodup
    (dedupKeepFirst (rows.map fun r => r.hour)) [] 0 h0
  rw [Nat.zero_add] at hmain
  have hlen : (sharedHours rows a b).length =
      (dedupKeepFirst (rows.map fun r => r.hour)).countP
        (fun h => decide (a ∈ agentsAtHour rows h) && decide (b ∈ agentsAtHour rows h)) := by
    rw [sharedHours]
    exact (List.countP_eq_length_filter _ _).symm
  rcases hmain with ⟨hk, hnone⟩ | ⟨hk, e, hsome, hw⟩
  · have hshared : sharedHours rows a b = [] := by
      rw [← List.length_eq_zero, hlen, hk]
    constructor
    · exact iff_of_true hshared (by rw [temporalEdges]; exact hnone)
    · intro hne
      exact absurd hshared hne
  · constructor
    · apply iff_of_false
      · intro hcon
        have : (sharedHours rows a b).length = 0 := by rw [hcon]; rfl
        rw [hlen] at this
        omega
      · rw [temporalEdges, hsome]
        simp
    · intro _
      refine ⟨e, by rw [temporalEdges]; exact hsome, ?_⟩
      rw [hw, bumpWeight, hlen]

/-- C8, amended: the temporal-correlation pass creates an edge for an
(unordered) agent pair exactly when the two agents share at least one
qualifying hourly bucket (a bucket requires more than 2 posts by that agent
at that hour, via HAVING COUNT(*) > 2 — the >2 threshold is per-agent posts
in one bucket, not a minimum number of overlapping buckets), and the edge's
weight is 0.4 for the first shared bucket plus 0.2 for each additional
shared bucket. -/
theorem temporal_edges_weight_spec (nodes : List Nat) (rows : List TempRow) (a b : Nat)
    (hab : a ≠ b) (ha : a ∈ nodes) (hb : b ∈ nodes)
    (hnodup : (rows.map fun r => (r.agent_id, r.hour)).Nodup) :
    (sharedHours rows a b = [] ↔ findTemporalEdge (temporalEdges nodes rows) a b = none) ∧
    (sharedHours rows a b ≠ [] →
      ∃ e, findTemporalEdge (temporalEdges nodes rows) a b = some e ∧
        e.weight = Rat.divInt 2 5 +
          (((sharedHours rows a b).length : ℚ) - 1) * Rat.divInt 1 5) :=
  temporal_edge_weight nodes rows a b hab ha hb hnodup

/-- Witness for (amended) C8: agents 1 and 2 share the two qualifying
buckets at hours 9 and 11, and their edge carries weight 0.4 + 0.2. -/
theorem temporal_edges_weight_spec_witness :
    ∃ e, findTemporalEdge (temporalEdges [1, 2]
        [⟨1, 9, 3⟩, ⟨2, 9, 3⟩, ⟨1, 11, 4⟩, ⟨2, 11, 5⟩]) 1 2 = some e ∧
      e.weight = Rat.divInt 2 5 +
        (((sharedHours [⟨1, 9, 3⟩, ⟨2, 9, 3⟩, ⟨1, 11, 4⟩, ⟨2, 11, 5⟩] 1 2).length : ℚ) - 1) *
          Rat.divInt 1 5 :=
  (temporal_edges_weight_spec [1, 2] [⟨1, 9, 3⟩, ⟨2, 9, 3⟩, ⟨1, 11, 4⟩, ⟨2, 11, 5⟩] 1 2
    (by decide) (by decide) (by decide) (by decide)).2 (by decide)

/-- C8, counterexample to the original claim: agents 1 and 2 share exactly
ONE qualifying hourly bucket (hour 9) — not more than 2 — yet the pass
already creates their edge, with weight 0.4 (= 2/5) and hours [9]. -/
theorem temporal_edge_single_bucket_counterexample :
    findTemporalEdge (temporalEdges [1, 2] [⟨1, 9, 3⟩, ⟨2, 9, 3⟩]) 1 2 =
      some ⟨1, 2, Rat.divInt 2 5, [9]⟩ ∧
    sharedHours [⟨1, 9, 3⟩, ⟨2, 9, 3⟩] 1 2 = [9] ∧
    Rat.divInt 2 5 = 2/5 ∧ Rat.divInt 1 5 = 1/5 ∧ ¬(2 < 1) := by
  refine ⟨by decide, by decide, ?_, ?_, by decide⟩
  · rw [Rat.divInt_eq_div]
    norm_num
  · rw [Rat.divInt_eq_div]
    norm_num

end AgentHub
